import Mathlib

/-!
Verification of the CSV product-import pipeline (app/tasks.py, app/crud.py,
app/models.py, app/main.py) against its natural-language specification.

The Python source is shallowly embedded: pure helpers become Lean functions,
the Redis status store becomes an explicit record of fields, the relational
store becomes a list of rows with a fresh-id counter, and the Celery task
body becomes a function from the CSV file content to a run result carrying
the ordered trace of status writes, the final store and the task outcome.
Python strings are modelled through their character lists; `str.lower` and
`str.strip` are modelled on ASCII data (all inputs of interest are ASCII).
`decimal.Decimal` is modelled on its sign/digits/point fragment (exponents,
specials and underscores are treated as parse failures; no claim exercises
them). The `csv` module is modelled for unquoted fields, which covers every
input the spec mentions.
-/

/-- ASCII lower-casing of one character, as in `str.lower` on ASCII data. -/
def pyLowerChar (c : Char) : Char :=
  if 'A' ≤ c ∧ c ≤ 'Z' then Char.ofNat (c.toNat + 32) else c

/-- Model of Python `str.lower` (ASCII fragment). -/
def pyLower (s : String) : String := String.mk (s.data.map pyLowerChar)

/-- Whitespace recognised by Python `str.strip` (ASCII fragment). -/
def isPySpace (c : Char) : Bool :=
  c == ' ' || c == '\t' || c == '\n' || c == '\x0d' || c == '\x0b' || c == '\x0c'

/-- Model of Python `str.strip`: drop leading and trailing whitespace. -/
def pyStrip (s : String) : String :=
  String.mk (((s.data.dropWhile isPySpace).reverse.dropWhile isPySpace).reverse)

/-- Model of Python `str.replace(c, "")`: remove every occurrence of `c`. -/
def stripChar (c : Char) (s : String) : String :=
  String.mk (s.data.filter (fun x => x != c))

/-- Split a character list at every occurrence of `c` (model of
`str.split(c)` and of the `csv` module's field splitting for unquoted
fields). The result is always non-empty. -/
def splitOnChar (c : Char) : List Char → List (List Char)
  | [] => [[]]
  | x :: xs =>
    let r := splitOnChar c xs
    if x = c then [] :: r
    else
      match r with
      | [] => [[x]]
      | h :: t => (x :: h) :: t

/-- Numeric value of a digit string, most significant first. -/
def natOfDigits (l : List Char) : Nat :=
  l.foldl (fun acc c => acc * 10 + (c.toNat - 48)) 0

/-- Model of the `decimal.Decimal` constructor on its sign/digits/point
fragment: an optional sign, then digits with at most one decimal point and
at least one digit. Returns `(negative, significand, scale)` with value
`(-1)^negative * significand / 10^scale`; other inputs (exponents,
specials, underscores, embedded spaces) are parse failures. -/
def pyDecimal (s : String) : Option (Bool × Nat × Nat) :=
  let p : Bool × List Char :=
    match s.data with
    | '-' :: t => (true, t)
    | '+' :: t => (false, t)
    | t => (false, t)
  match splitOnChar '.' p.2 with
  | [ip] =>
    if !ip.isEmpty && ip.all Char.isDigit then some (p.1, natOfDigits ip, 0) else none
  | [ip, fp] =>
    if (!ip.isEmpty || !fp.isEmpty) && ip.all Char.isDigit && fp.all Char.isDigit then
      some (p.1, natOfDigits ip * 10 ^ fp.length + natOfDigits fp, fp.length)
    else none
  | _ => none

/-- `int(Decimal(...) * 100)`: multiply the parsed decimal by 100 and
truncate toward zero, as Python `int()` does. -/
def decimalTimes100 (d : Bool × Nat × Nat) : Int :=
  let absCents : Nat := d.2.1 * 100 / 10 ^ d.2.2
  if d.1 then -(absCents : Int) else (absCents : Int)

/-- Model of `tasks._parse_price_to_cents`: `None`/empty is absent; strip
`$` and `,` and surrounding whitespace; parse as a decimal, multiply by
100, truncate to an integer; negative results are absent. -/
def _parse_price_to_cents (value : Option String) : Option Int :=
  match value with
  | none => none
  | some v =>
    if v = "" then none
    else
      let cleaned := pyStrip (stripChar ',' (stripChar '$' v))
      if cleaned = "" then none
      else
        match pyDecimal cleaned with
        | none => none
        | some d =>
          let cents := decimalTimes100 d
          if cents ≥ 0 then some cents else none

/-- Canonical product record: the output of row normalization
(`tasks._normalize_row`). -/
structure CanonicalRecord where
  sku : String
  name : Option String
  description : Option String
  price_cents : Option Int
  active : Bool
deriving DecidableEq, Repr

/-- A raw CSV row as handed to `_normalize_row` by `csv.DictReader`:
header name paired with the cell value, `none` when the row is shorter
than the header. -/
abbrev RawRow := List (String × Option String)

/-- Insertion-ordered overwrite into an association list: the model of
`d[k] = v` on a Python `dict` (an existing key keeps its position). -/
def setKey {α : Type} : List (String × α) → String → α → List (String × α)
  | [], k, v => [(k, v)]
  | (k2, v2) :: rest, k, v =>
    if k2 = k then (k, v) :: rest else (k2, v2) :: setKey rest k v

/-- Lookup in the association list: the model of `d.get(k)`. -/
def getKey {α : Type} : List (String × α) → String → Option α
  | [], _ => none
  | (k2, v2) :: rest, k => if k2 = k then some v2 else getKey rest k

/-- The normalized header→value dict built by `_normalize_row`:
`{ (key or "").strip().lower(): value for key, value in row.items() }`. -/
def normalizedMap (row : RawRow) : List (String × Option String) :=
  row.foldl (fun m kv => setKey m (pyLower (pyStrip kv.1)) kv.2) []

/-- `normalized.get(k)`, collapsing a missing key and a `None` cell (the
source treats both through `or`/`None` fallbacks). -/
def rowGet (row : RawRow) (k : String) : Option String :=
  (getKey (normalizedMap row) k).join

/-- The trimmed sku of a raw row: `(normalized.get("sku") or "").strip()`. -/
def rowSku (row : RawRow) : String := pyStrip ((rowGet row "sku").getD "")

/-- `(x or "").strip() or None` applied to an optional cell. -/
def strippedOrNone (v : Option String) : Option String :=
  let t := pyStrip (v.getD "")
  if t = "" then none else some t

/-- Python `a or b` on `Optional[int]` operands: `None` and `0` are falsy. -/
def pyOrInt (a b : Option Int) : Option Int :=
  match a with
  | some n => if n = 0 then b else some n
  | none => b

/-- Model of `tasks._normalize_row`: reject when the trimmed sku is empty,
otherwise build the canonical record, with the permissive active-flag and
price fallbacks of the source. -/
def _normalize_row (row : RawRow) : Option CanonicalRecord :=
  if rowSku row = "" then none
  else
    let activeValue := pyLower (pyStrip ((rowGet row "active").getD ""))
    some
      { sku := rowSku row
        name := strippedOrNone (rowGet row "name")
        description := strippedOrNone (rowGet row "description")
        price_cents :=
          pyOrInt (_parse_price_to_cents (rowGet row "price_cents"))
            (_parse_price_to_cents (rowGet row "price"))
        active :=
          if activeValue = "false" ∨ activeValue = "0" ∨ activeValue = "no" ∨
              activeValue = "inactive" then false
          else true }

/-- Model of `tasks._dedupe_batch`: a Python dict keyed by `sku.lower()`,
last record per key wins, values returned in key insertion order. -/
def _dedupe_batch (rows : List CanonicalRecord) : List CanonicalRecord :=
  (rows.foldl (fun m r => setKey m (pyLower r.sku) r) []).map Prod.snd

/-- A stored product row (`models.Product`): the canonical fields plus the
surrogate id and the creation/update timestamps. -/
structure ProductRow where
  id : Nat
  sku : String
  name : Option String
  description : Option String
  price_cents : Option Int
  active : Bool
  created_at : Nat
  updated_at : Nat
deriving DecidableEq, Repr

/-- The products table: its rows and the next value of the id sequence.
The unique index `ix_products_lower_sku_unique` keeps at most one row per
lower-cased sku. -/
structure Store where
  rows : List ProductRow
  nextId : Nat
deriving DecidableEq, Repr

/-- The `ON CONFLICT DO UPDATE` action of `crud.upsert_products_bulk` on
one stored row: when the lower-cased skus collide, overwrite exactly
`name`, `description`, `price_cents` and `active`; otherwise leave the row
alone. (SQLAlchemy applies only the given `set_` clause here, so
`updated_at` is untouched as well.) -/
def applyConflict (r : CanonicalRecord) (p : ProductRow) : ProductRow :=
  if pyLower p.sku = pyLower r.sku then
    { p with name := r.name, description := r.description,
             price_cents := r.price_cents, active := r.active }
  else p

/-- Insert-or-update of a single record keyed on the case-insensitive sku:
one proposed row of the `INSERT ... ON CONFLICT (lower(sku)) DO UPDATE`
statement issued by `crud.upsert_products_bulk`. -/
def upsertOne (st : Store) (now : Nat) (r : CanonicalRecord) : Store :=
  if st.rows.any (fun p => pyLower p.sku == pyLower r.sku) then
    { st with rows := st.rows.map (applyConflict r) }
  else
    { rows := st.rows ++
        [{ id := st.nextId, sku := r.sku, name := r.name,
           description := r.description, price_cents := r.price_cents,
           active := r.active, created_at := now, updated_at := now }],
      nextId := st.nextId + 1 }

/-- Model of `crud.upsert_products_bulk`: apply every proposed row and
return the processed count. An empty input returns zero without touching
the store. The chunking of the source only bounds statement size; each
proposed row is still applied once and counted once (`rowcount` of an
insert-or-update statement is the number of proposed rows), so the fold is
the chunked statement's semantics. -/
def upsert_products_bulk (st : Store) (now : Nat) (rows : List CanonicalRecord) :
    Store × Nat :=
  (rows.foldl (fun s r => upsertOne s now r) st, rows.length)

/-- The lines of a file as Python's line iteration yields them: split on
newline, with no empty trailing line when the content ends in a newline. -/
def fileLines (s : String) : List String :=
  if s.data.isEmpty then []
  else
    let parts := splitOnChar '\n' s.data
    (match parts.getLast? with
     | some [] => parts.dropLast
     | _ => parts).map String.mk

/-- Model of `tasks._count_rows`: total line count minus the header line,
floored at zero. -/
def _count_rows (content : String) : Nat := (fileLines content).length - 1

/-- One line split into csv fields (unquoted-field fragment of the `csv`
module). -/
def splitFields (s : String) : List String :=
  (splitOnChar ',' s.data).map String.mk

/-- Pair header names with the cells of one row, as `csv.DictReader`
builds its row dict: missing cells become `None`; extra cells (the
`restkey` entry) play no role for the headers this pipeline reads. -/
def pairUp : List String → List String → RawRow
  | [], _ => []
  | f :: fs, [] => (f, none) :: pairUp fs []
  | f :: fs, v :: vs => (f, some v) :: pairUp fs vs

/-- Model of `csv.DictReader` over the file content: the first line gives
the field names (a blank first line gives none, as the csv reader yields
an empty record for it), later blank lines are skipped, every other line
becomes a header→cell row dict. -/
def csvParse (content : String) : List String × List RawRow :=
  match fileLines content with
  | [] => ([], [])
  | h :: rest =>
    let fieldnames := if h = "" then [] else splitFields h
    (fieldnames,
     rest.filterMap (fun l => if l = "" then none else some (pairUp fieldnames (splitFields l))))

/-- The orchestrator's header check, `not headers or "sku" not in headers`
on the set of stripped lower-cased field names. -/
def headerBad (content : String) : Bool :=
  let fieldnames := (csvParse content).1
  fieldnames.isEmpty || !(fieldnames.map (fun h => pyLower (pyStrip h))).contains "sku"

/-- The job status record (the `task:<id>:*` keys in Redis) as a poller
reads it: unset counters read as 0, unset strings as empty/absent. -/
structure TaskState where
  status : String
  progress : Nat
  total : Nat
  invalid : Nat
  error : Option String
deriving DecidableEq, Repr

/-- One `_set_task_state` call: the fields this call sets. -/
structure StatusWrite where
  status : Option String
  progress : Option Nat
  total : Option Nat
  invalid : Option Nat
  error : Option String
deriving DecidableEq, Repr

/-- Apply one status write to the store's current state: every named field
is overwritten, the rest keep their values. -/
def applyWrite (s : TaskState) (w : StatusWrite) : TaskState :=
  { status := w.status.getD s.status
    progress := w.progress.getD s.progress
    total := w.total.getD s.total
    invalid := w.invalid.getD s.invalid
    error := match w.error with | some m => some m | none => s.error }

/-- The state of the Redis keys before the task writes anything. -/
def initialTaskState : TaskState := ⟨"", 0, 0, 0, none⟩

/-- `status="initializing", progress=0, total=0, invalid=0`. -/
def wInit : StatusWrite := ⟨some "initializing", some 0, some 0, some 0, none⟩

/-- `status="parsing", total=total_rows`. -/
def wParsing (t : Nat) : StatusWrite := ⟨some "parsing", none, some t, none, none⟩

/-- The batch-boundary publish:
`status="importing (p/t)", progress=p, invalid=inv`. -/
def wImporting (p t inv : Nat) : StatusWrite :=
  ⟨some ("importing (" ++ Nat.repr p ++ "/" ++ Nat.repr t ++ ")"), some p, none, some inv, none⟩

/-- The final publish on success. -/
def wComplete (p t inv : Nat) : StatusWrite :=
  ⟨some "complete", some p, some t, some inv, none⟩

/-- The publish on failure: `status="error: <msg>", error=<msg>`. -/
def wError (m : String) : StatusWrite :=
  ⟨some ("error: " ++ m), none, none, none, some m⟩

/-- The loop state of `import_products_task`'s row loop, together with the
current Redis state and the ordered trace of states after each write. -/
structure LoopSt where
  batch : List CanonicalRecord
  processed : Nat
  invalid_rows : Nat
  store : Store
  upserts : Nat
  cur : TaskState
  trace : List TaskState
deriving Repr

/-- Perform one status write: update the current state and append the new
observable state to the trace. -/
def pushW (l : LoopSt) (w : StatusWrite) : LoopSt :=
  let c := applyWrite l.cur w
  { l with cur := c, trace := l.trace ++ [c] }

/-- The row loop of `import_products_task`. `fault k` injects a storage
failure (the raised message) into the k-th upsert call of the run,
modelling a chunk failure of the Upsert Engine; `fault` constantly `none`
is the fault-free run. An error aborts the loop and carries the loop state
at the raise. -/
def importLoop (fault : Nat → Option String) (now batchSize totalRows : Nat) :
    List RawRow → LoopSt → Except (String × LoopSt) LoopSt
  | [], l => .ok l
  | row :: rest, l =>
    match _normalize_row row with
    | none =>
      importLoop fault now batchSize totalRows rest
        { l with invalid_rows := l.invalid_rows + 1 }
    | some product =>
      let l1 := { l with batch := l.batch ++ [product] }
      if l1.batch.length ≥ batchSize then
        match fault l1.upserts with
        | some m => .error (m, { l1 with upserts := l1.upserts + 1 })
        | none =>
          let res := upsert_products_bulk l1.store now (_dedupe_batch l1.batch)
          let l2 := { l1 with store := res.1, processed := l1.processed + res.2,
                              batch := [], upserts := l1.upserts + 1 }
          importLoop fault now batchSize totalRows rest
            (pushW l2 (wImporting l2.processed totalRows l2.invalid_rows))
      else importLoop fault now batchSize totalRows rest l1

/-- The flush of the remaining partial batch after the stream ends. -/
def finalFlush (fault : Nat → Option String) (now : Nat) (l : LoopSt) :
    Except (String × LoopSt) LoopSt :=
  if l.batch.isEmpty then .ok l
  else
    match fault l.upserts with
    | some m => .error (m, { l with upserts := l.upserts + 1 })
    | none =>
      let res := upsert_products_bulk l.store now (_dedupe_batch l.batch)
      .ok { l with store := res.1, processed := l.processed + res.2,
                   batch := [], upserts := l.upserts + 1 }

/-- `os.remove` on the modelled file: removing a missing file raises
`FileNotFoundError`. -/
def osRemove (fileExists : Bool) : Except String Bool :=
  if fileExists then .ok false else .error "FileNotFoundError"

/-- The `finally` block of `import_products_task`: remove the source file
and swallow only `FileNotFoundError`. Returns the file's existence after
cleanup and the error the cleanup would propagate, if any. -/
def finallyCleanup (fileExists : Bool) : Bool × Option String :=
  match osRemove fileExists with
  | .ok e => (e, none)
  | .error "FileNotFoundError" => (fileExists, none)
  | .error m => (fileExists, some m)

/-- The observable result of one run of `import_products_task`: the
ordered trace of published states, the final Redis state, the final
products table, whether the source file still exists after the `finally`
cleanup, and the exception message re-raised to Celery, if any. -/
structure RunResult where
  trace : List TaskState
  finalState : TaskState
  store : Store
  fileExists : Bool
  outcome : Option String
deriving Repr

/-- Model of `tasks.import_products_task`: write `initializing`, count the
rows and write `parsing`, fail fast on a missing `sku` header, stream the
rows through normalize → dedupe → upsert with batch-boundary publishes,
flush the final partial batch, publish `complete` — and on any exception
publish the error state before re-raising. The source file is removed on
every exit path. -/
def import_products_task (fault : Nat → Option String) (batchSize : Nat)
    (st0 : Store) (now : Nat) (fileExists0 : Bool) (content : String) : RunResult :=
  let s1 := applyWrite initialTaskState wInit
  let totalRows := _count_rows content
  let s2 := applyWrite s1 (wParsing totalRows)
  let tr2 : List TaskState := [s1, s2]
  let fe := (finallyCleanup fileExists0).1
  if headerBad content then
    let msg := "CSV must include an 'sku' column"
    let s3 := applyWrite s2 (wError msg)
    { trace := tr2 ++ [s3], finalState := s3, store := st0,
      fileExists := fe, outcome := some msg }
  else
    let l0 : LoopSt := ⟨[], 0, 0, st0, 0, s2, tr2⟩
    match importLoop fault now batchSize totalRows (csvParse content).2 l0 with
    | .error e =>
      let s3 := applyWrite e.2.cur (wError e.1)
      { trace := e.2.trace ++ [s3], finalState := s3, store := e.2.store,
        fileExists := fe, outcome := some e.1 }
    | .ok l1 =>
      match finalFlush fault now l1 with
      | .error e =>
        let s3 := applyWrite e.2.cur (wError e.1)
        { trace := e.2.trace ++ [s3], finalState := s3, store := e.2.store,
          fileExists := fe, outcome := some e.1 }
      | .ok l2 =>
        let s3 := applyWrite l2.cur (wComplete l2.processed totalRows l2.invalid_rows)
        { trace := l2.trace ++ [s3], finalState := s3, store := l2.store,
          fileExists := fe, outcome := none }

/-- The fault-free run: no storage failure is injected. -/
def noFault : Nat → Option String := fun _ => none

/-- The percent-complete a poller derives in `main.task_status`:
`(processed / total) * 100`, here as an exact rational. -/
def percentOf (p t : Nat) : ℚ := (p : ℚ) / (t : ℚ) * 100

/-- Rounding to two decimal places, modelling `round(x, 2)` (tie-breaking
aside, which no monotonicity statement depends on). -/
def pyRound2 (q : ℚ) : ℚ := ((round (q * 100) : ℤ) : ℚ) / 100

/-- C1: the code, evaluated where the claim speaks. A `price_cents` cell
of `"12"` parses as the non-negative integer 12, yet the normalizer stores
`price_cents = 1200`: `_parse_price_to_cents` multiplies both price
columns by 100. Moreover a `price_cents` cell parsing to 0 falls back to
the `price` column (Python `or` treats 0 as falsy), against the claim's
"without falling back". -/
theorem normalize_price_cents_column_times_100 :
    _normalize_row [("sku", some "A1"), ("price_cents", some "12")] =
      some ⟨"A1", none, none, some 1200, true⟩ ∧
    _normalize_row [("sku", some "B"), ("price_cents", some "0"), ("price", some "2")] =
      some ⟨"B", none, none, some 200, true⟩ := by
  constructor <;> decide

/-- C2, counterexample: on the spec's concrete input the completed run
publishes `progress = 1`, not 2 — the two `A1` rows collapse in the batch
deduplication before the upsert, so the upsert processes (and counts) one
row. -/
theorem scenario_progress_ne_two :
    (import_products_task noFault 5000 ⟨[], 1⟩ 0 true
        "sku,name,price\nA1,Widget,$12.50\n,NoKey,5\nA1,Widget2,9.99\n").finalState.progress
      ≠ 2 := by
  decide

/-- C2, amended: the run on the spec's concrete input terminates in the
complete phase with published `total = 3`, `invalid = 1` and
`progress = 1`, and exactly one stored row, for key `A1`, with name
`"Widget2"` and `price_cents = 999`. -/
theorem scenario_run_results :
    (import_products_task noFault 5000 ⟨[], 1⟩ 0 true
        "sku,name,price\nA1,Widget,$12.50\n,NoKey,5\nA1,Widget2,9.99\n").finalState =
      ⟨"complete", 1, 3, 1, none⟩ ∧
    (import_products_task noFault 5000 ⟨[], 1⟩ 0 true
        "sku,name,price\nA1,Widget,$12.50\n,NoKey,5\nA1,Widget2,9.99\n").outcome = none ∧
    (import_products_task noFault 5000 ⟨[], 1⟩ 0 true
        "sku,name,price\nA1,Widget,$12.50\n,NoKey,5\nA1,Widget2,9.99\n").store.rows.map
        (fun p => (p.sku, p.name, p.price_cents)) = [("A1", some "Widget2", some 999)] := by
  refine ⟨by decide, by decide, by decide⟩

/-- C9: on every exit path — complete, error or injected storage fault —
the `finally` cleanup leaves the source file removed, and running the
cleanup again on the already-missing file is a swallowed no-op, not an
error. -/
theorem cleanup_on_every_exit_path (fault : Nat → Option String)
    (batchSize : Nat) (st0 : Store) (now : Nat) (fe0 : Bool) (content : String) :
    (import_products_task fault batchSize st0 now fe0 content).fileExists = false ∧
    finallyCleanup (import_products_task fault batchSize st0 now fe0 content).fileExists =
      (false, none) := by
  have hclean : ∀ b, (finallyCleanup b).1 = false := by decide
  have hfe : (import_products_task fault batchSize st0 now fe0 content).fileExists =
      (finallyCleanup fe0).1 := by
    unfold import_products_task
    dsimp only
    split
    · rfl
    · split
      · rfl
      · split <;> rfl
  refine ⟨by rw [hfe, hclean], ?_⟩
  rw [hfe, hclean]
  decide

/-- C8: whenever the run re-raises an exception message to the job runner
(`outcome = some msg`), the status record was already updated on the way
out: the final published state carries `status = "error: " ++ msg` and
`error = msg`, and that state is the last write of the trace — the status
write precedes the re-raise, so a poller never sees the crash without the
error-phase status. -/
theorem error_state_written_before_reraise (fault : Nat → Option String)
    (batchSize : Nat) (st0 : Store) (now : Nat) (fe0 : Bool) (content : String)
    (msg : String) :
    (import_products_task fault batchSize st0 now fe0 content).outcome = some msg →
    (import_products_task fault batchSize st0 now fe0 content).finalState.status =
        "error: " ++ msg ∧
    (import_products_task fault batchSize st0 now fe0 content).finalState.error = some msg ∧
    (import_products_task fault batchSize st0 now fe0 content).trace.getLast? =
      some (import_products_task fault batchSize st0 now fe0 content).finalState := by
  unfold import_products_task
  dsimp only
  split
  · intro h
    obtain rfl : _ = msg := Option.some.inj h
    exact ⟨rfl, rfl, rfl⟩
  · split
    · intro h
      obtain rfl : _ = msg := Option.some.inj h
      exact ⟨rfl, rfl, by rw [List.getLast?_concat]⟩
    · split
      · intro h
        obtain rfl : _ = msg := Option.some.inj h
        exact ⟨rfl, rfl, by rw [List.getLast?_concat]⟩
      · intro h
        exact absurd h (by simp)

/-- C8 witness: a run whose first upsert call fails with message `"boom"`
re-raises it and has published the matching error state. -/
theorem error_state_written_witness :
    (import_products_task (fun _ => some "boom") 1 ⟨[], 1⟩ 0 true
        "sku\nA\n").outcome = some "boom" ∧
    (import_products_task (fun _ => some "boom") 1 ⟨[], 1⟩ 0 true
        "sku\nA\n").finalState.status = "error: " ++ "boom" ∧
    (import_products_task (fun _ => some "boom") 1 ⟨[], 1⟩ 0 true
        "sku\nA\n").finalState.error = some "boom" := by
  have h : (import_products_task (fun _ => some "boom") 1 ⟨[], 1⟩ 0 true
      "sku\nA\n").outcome = some "boom" := by decide
  have h2 := error_state_written_before_reraise (fun _ => some "boom") 1 ⟨[], 1⟩ 0 true
    "sku\nA\n" "boom" h
  exact ⟨h, h2.1, h2.2.1⟩

/-- C5: when the header is absent or lacks a `sku` column under
case-insensitive matching (the orchestrator's `headerBad` check), the job
ends in the error phase with the descriptive message before any row work:
the store is untouched, and the published progress is 0 in the final state
and in every state of the trace. -/
theorem missing_sku_header_aborts (fault : Nat → Option String)
    (batchSize : Nat) (st0 : Store) (now : Nat) (fe0 : Bool) (content : String)
    (h : headerBad content = true) :
    (import_products_task fault batchSize st0 now fe0 content).outcome =
        some "CSV must include an 'sku' column" ∧
    (import_products_task fault batchSize st0 now fe0 content).finalState.status =
        "error: CSV must include an 'sku' column" ∧
    (import_products_task fault batchSize st0 now fe0 content).store = st0 ∧
    (import_products_task fault batchSize st0 now fe0 content).finalState.progress = 0 ∧
    ∀ s ∈ (import_products_task fault batchSize st0 now fe0 content).trace,
      s.progress = 0 := by
  unfold import_products_task
  simp only [h, if_true]
  refine ⟨trivial, rfl, trivial, rfl, ?_⟩
  intro s hs
  simp only [List.cons_append, List.nil_append, List.mem_cons,
    List.not_mem_nil, or_false] at hs
  rcases hs with rfl | rfl | rfl <;> rfl

/-- C5 witness: a CSV whose only header is `name` aborts in the error
phase with an unchanged store and zero progress everywhere. -/
theorem missing_sku_header_witness :
    (import_products_task noFault 5000 ⟨[], 1⟩ 0 true "name\nWidget\n").outcome =
        some "CSV must include an 'sku' column" ∧
    (import_products_task noFault 5000 ⟨[], 1⟩ 0 true "name\nWidget\n").store = ⟨[], 1⟩ ∧
    (import_products_task noFault 5000 ⟨[], 1⟩ 0 true "name\nWidget\n").finalState.progress
      = 0 := by
  have h := missing_sku_header_aborts noFault 5000 ⟨[], 1⟩ 0 true "name\nWidget\n"
    (by decide)
  exact ⟨h.1, h.2.2.1, h.2.2.2.1⟩

/-- C6: upserting a record whose case-insensitive sku matches a stored row
updates in place: the table becomes the conflict-overwrite image of
itself, no row is added (same length, id sequence untouched), and the
overwrite changes only `name`, `description`, `price_cents` and `active` —
`id`, `sku` and the timestamps of every row are preserved, and rows with
other keys are untouched. -/
theorem upsert_conflict_updates_in_place (st : Store) (now : Nat) (r : CanonicalRecord)
    (h : st.rows.any (fun p => pyLower p.sku == pyLower r.sku) = true) :
    (upsert_products_bulk st now [r]).1.rows = st.rows.map (applyConflict r) ∧
    (upsert_products_bulk st now [r]).1.nextId = st.nextId ∧
    (upsert_products_bulk st now [r]).1.rows.length = st.rows.length ∧
    ∀ p : ProductRow,
      (applyConflict r p).id = p.id ∧
      (applyConflict r p).sku = p.sku ∧
      (applyConflict r p).created_at = p.created_at ∧
      (applyConflict r p).updated_at = p.updated_at ∧
      (pyLower p.sku = pyLower r.sku →
        (applyConflict r p).name = r.name ∧
        (applyConflict r p).description = r.description ∧
        (applyConflict r p).price_cents = r.price_cents ∧
        (applyConflict r p).active = r.active) ∧
      (pyLower p.sku ≠ pyLower r.sku → applyConflict r p = p) := by
  have h1 : upsertOne st now r = { st with rows := st.rows.map (applyConflict r) } := by
    unfold upsertOne
    rw [if_pos h]
  have h2 : (upsert_products_bulk st now [r]).1 = upsertOne st now r := rfl
  refine ⟨by rw [h2, h1], by rw [h2, h1], by rw [h2, h1]; exact List.length_map _ _, ?_⟩
  intro p
  unfold applyConflict
  by_cases hc : pyLower p.sku = pyLower r.sku <;>
    simp [hc]

/-- C6 witness: a store holding a `widget-1` row takes an upsert of key
`WIDGET-1` as an in-place overwrite. -/
theorem upsert_conflict_updates_witness :
    (upsert_products_bulk ⟨[⟨7, "widget-1", some "old", none, some 5, true, 3, 4⟩], 8⟩ 9
        [⟨"WIDGET-1", some "new", none, some 10, false⟩]).1.rows =
      [⟨7, "widget-1", some "old", none, some 5, true, 3, 4⟩].map
        (applyConflict ⟨"WIDGET-1", some "new", none, some 10, false⟩) ∧
    (upsert_products_bulk ⟨[⟨7, "widget-1", some "old", none, some 5, true, 3, 4⟩], 8⟩ 9
        [⟨"WIDGET-1", some "new", none, some 10, false⟩]).1.nextId = 8 := by
  have h := upsert_conflict_updates_in_place
    ⟨[⟨7, "widget-1", some "old", none, some 5, true, 3, 4⟩], 8⟩ 9
    ⟨"WIDGET-1", some "new", none, some 10, false⟩ (by decide)
  exact ⟨h.1, h.2.1⟩

/-- Looking up the key just set returns the new value. -/
theorem getKey_setKey_self {α : Type} (m : List (String × α)) (k : String) (v : α) :
    getKey (setKey m k v) k = some v := by
  induction m with
  | nil => simp [setKey, getKey]
  | cons e rest ih =>
    by_cases h : e.1 = k
    · simp [setKey, getKey, h]
    · simp [setKey, getKey, h, ih]

/-- Setting one key leaves lookups of other keys unchanged. -/
theorem getKey_setKey_ne {α : Type} (m : List (String × α)) (k k2 : String) (v : α)
    (h : k2 ≠ k) : getKey (setKey m k v) k2 = getKey m k2 := by
  induction m with
  | nil => simp [setKey, getKey, Ne.symm h]
  | cons e rest ih =>
    by_cases he : e.1 = k
    · simp [setKey, getKey, he, h, Ne.symm h]
    · by_cases he2 : e.1 = k2 <;> simp [setKey, getKey, he, he2, ih, h]

/-- A member of the updated dict is an old member or the new entry. -/
theorem mem_setKey {α : Type} (m : List (String × α)) (k : String) (v : α)
    (e : String × α) (h : e ∈ setKey m k v) : e ∈ m ∨ e = (k, v) := by
  induction m with
  | nil => simp [setKey] at h; simp [h]
  | cons e2 rest ih =>
    by_cases he : e2.1 = k
    · simp [setKey, he] at h
      rcases h with h | h
      · right; simp [h]
      · left; simp [h]
    · simp [setKey, he] at h
      rcases h with h | h
      · left; simp [h]
      · rcases ih h with h2 | h2
        · left; simp [h2]
        · right; exact h2

/-- The dict update keeps the key list duplicate-free. -/
theorem nodup_keys_setKey {α : Type} (m : List (String × α)) (k : String) (v : α)
    (h : (m.map Prod.fst).Nodup) : ((setKey m k v).map Prod.fst).Nodup := by
  induction m with
  | nil => simp [setKey]
  | cons e rest ih =>
    by_cases he : e.1 = k
    · simpa [setKey, he] using h
    · simp only [List.map_cons, List.nodup_cons] at h
      have hk : e.1 ∉ (setKey rest k v).map Prod.fst := by
        intro hmem
        rcases List.mem_map.1 hmem with ⟨e2, he2, hfst⟩
        rcases mem_setKey rest k v e2 he2 with h2 | h2
        · exact h.1 (List.mem_map.2 ⟨e2, h2, hfst⟩)
        · exact he (by rw [← hfst, h2])
      simp only [setKey, he, if_false, List.map_cons, List.nodup_cons]
      exact ⟨hk, ih h.2⟩

/-- Under duplicate-free keys, membership gives the lookup. -/
theorem getKey_of_mem {α : Type} (m : List (String × α)) (e : String × α)
    (hnd : (m.map Prod.fst).Nodup) (h : e ∈ m) : getKey m e.1 = some e.2 := by
  induction m with
  | nil => simp at h
  | cons e2 rest ih =>
    simp only [List.map_cons, List.nodup_cons] at hnd
    rcases List.mem_cons.1 h with h2 | h2
    · simp [getKey, h2]
    · have hne : e2.1 ≠ e.1 := by
        intro hcontra
        exact hnd.1 (hcontra ▸ List.mem_map.2 ⟨e, h2, rfl⟩)
      simp [getKey, hne, ih hnd.2 h2]

/-- A successful lookup comes from a member entry. -/
theorem mem_of_getKey {α : Type} (m : List (String × α)) (k : String) (v : α)
    (h : getKey m k = some v) : (k, v) ∈ m := by
  induction m with
  | nil => simp [getKey] at h
  | cons e rest ih =>
    by_cases he : e.1 = k
    · have hv : e.2 = v := by
        have h2 := h
        simp [getKey, he] at h2
        exact h2
      subst he
      rw [← hv]
      exact List.mem_cons_self _ _
    · simp only [getKey, he, if_false] at h
      exact List.mem_cons.2 (Or.inr (ih h))

/-- The dict fold of `_dedupe_batch`, starting from an arbitrary dict. -/
def ddfold (rows : List CanonicalRecord) (m : List (String × CanonicalRecord)) :
    List (String × CanonicalRecord) :=
  rows.foldl (fun acc r => setKey acc (pyLower r.sku) r) m

/-- Each key of the dedupe dict maps to the last input record carrying it;
keys seen in no input row keep their prior binding. -/
theorem ddfold_lookup (rows : List CanonicalRecord)
    (m : List (String × CanonicalRecord)) (k : String) :
    getKey (ddfold rows m) k =
      ((rows.filter (fun r => decide (pyLower r.sku = k))).getLast?).elim
        (getKey m k) some := by
  induction rows generalizing m with
  | nil => simp [ddfold]
  | cons r rest ih =>
    by_cases hk : pyLower r.sku = k
    · rw [show ddfold (r :: rest) m = ddfold rest (setKey m (pyLower r.sku) r) from rfl, ih]
      cases hrest : rest.filter (fun r2 => decide (pyLower r2.sku = k)) with
      | nil => simp [List.filter_cons, hk, hrest, hk ▸ getKey_setKey_self m (pyLower r.sku) r]
      | cons x xs =>
        have hsome : (x :: xs).getLast? = some ((x :: xs).getLast (by simp)) :=
          List.getLast?_eq_getLast _ _
        simp [List.filter_cons, hk, hrest, hsome]
    · rw [show ddfold (r :: rest) m = ddfold rest (setKey m (pyLower r.sku) r) from rfl, ih]
      simp [List.filter_cons, hk, getKey_setKey_ne m (pyLower r.sku) k r (Ne.symm hk)]

/-- All entries of the dedupe dict are keyed by the lower-cased sku of
their record. -/
theorem ddfold_entry_key (rows : List CanonicalRecord)
    (m : List (String × CanonicalRecord))
    (hm : ∀ e ∈ m, e.1 = pyLower e.2.sku) :
    ∀ e ∈ ddfold rows m, e.1 = pyLower e.2.sku := by
  induction rows generalizing m with
  | nil => exact hm
  | cons r rest ih =>
    refine ih (setKey m (pyLower r.sku) r) ?_
    intro e he
    rcases mem_setKey m (pyLower r.sku) r e he with h | h
    · exact hm e h
    · simp [h]

/-- The dedupe dict has duplicate-free keys. -/
theorem ddfold_nodup_keys (rows : List CanonicalRecord)
    (m : List (String × CanonicalRecord)) (hm : (m.map Prod.fst).Nodup) :
    ((ddfold rows m).map Prod.fst).Nodup := by
  induction rows generalizing m with
  | nil => exact hm
  | cons r rest ih => exact ih _ (nodup_keys_setKey m (pyLower r.sku) r hm)

/-- C3: the batch deduplicator keeps at most one record per
case-insensitive sku (the lower-cased keys of its output are
duplicate-free), each retained record is exactly the last input record
with its key, and every input key is retained. -/
theorem dedupe_last_occurrence_wins (rows : List CanonicalRecord) :
    ((_dedupe_batch rows).map (fun r => pyLower r.sku)).Nodup ∧
    (∀ r ∈ _dedupe_batch rows,
      (rows.filter (fun x => decide (pyLower x.sku = pyLower r.sku))).getLast? = some r) ∧
    (∀ x ∈ rows, ∃ r ∈ _dedupe_batch rows, pyLower r.sku = pyLower x.sku) := by
  have hdd : _dedupe_batch rows = (ddfold rows []).map Prod.snd := rfl
  have hinv : ∀ e ∈ ddfold rows [], e.1 = pyLower e.2.sku :=
    ddfold_entry_key rows [] (by simp)
  have hnd : ((ddfold rows []).map Prod.fst).Nodup :=
    ddfold_nodup_keys rows [] (by simp)
  have hlook : ∀ k, getKey (ddfold rows []) k =
      (rows.filter (fun x => decide (pyLower x.sku = k))).getLast? := by
    intro k
    rw [ddfold_lookup rows [] k]
    cases (rows.filter (fun x => decide (pyLower x.sku = k))).getLast? <;>
      simp [getKey]
  refine ⟨?_, ?_, ?_⟩
  · rw [hdd, List.map_map]
    have hcg : (ddfold rows []).map ((fun r => pyLower r.sku) ∘ Prod.snd) =
        (ddfold rows []).map Prod.fst := by
      refine List.map_congr_left ?_
      intro e he
      exact (hinv e he).symm
    rw [hcg]
    exact hnd
  · intro r hr
    rw [hdd] at hr
    obtain ⟨e, he, rfl⟩ := List.mem_map.1 hr
    rw [← hlook]
    rw [← hinv e he]
    exact getKey_of_mem _ e hnd he
  · intro x hx
    have hmemf : x ∈ rows.filter (fun y => decide (pyLower y.sku = pyLower x.sku)) :=
      List.mem_filter.2 ⟨hx, by simp⟩
    have hne : rows.filter (fun y => decide (pyLower y.sku = pyLower x.sku)) ≠ [] :=
      List.ne_nil_of_mem hmemf
    obtain ⟨r, hr⟩ := Option.isSome_iff_exists.1 (List.getLast?_isSome.2 hne)
    have hget : getKey (ddfold rows []) (pyLower x.sku) = some r := by
      rw [hlook]
      exact hr
    have hmem : (pyLower x.sku, r) ∈ ddfold rows [] := mem_of_getKey _ _ _ hget
    refine ⟨r, ?_, ?_⟩
    · rw [hdd]
      exact List.mem_map.2 ⟨(pyLower x.sku, r), hmem, rfl⟩
    · exact (hinv _ hmem).symm

/-- C3 witness: a three-record batch with two `A1`-keyed records keeps one
record per key and retains the later `A1` record. -/
theorem dedupe_last_occurrence_witness :
    ((_dedupe_batch [⟨"A1", some "w1", none, none, true⟩, ⟨"b", none, none, none, true⟩,
        ⟨"a1", some "w2", none, none, false⟩]).map (fun r => pyLower r.sku)).Nodup ∧
    ([⟨"A1", some "w1", none, none, true⟩, ⟨"b", none, none, none, true⟩,
        (⟨"a1", some "w2", none, none, false⟩ : CanonicalRecord)].filter
        (fun x => decide (pyLower x.sku =
          pyLower (⟨"a1", some "w2", none, none, false⟩ : CanonicalRecord).sku))).getLast? =
      some ⟨"a1", some "w2", none, none, false⟩ := by
  have h := dedupe_last_occurrence_wins [⟨"A1", some "w1", none, none, true⟩,
    ⟨"b", none, none, none, true⟩, ⟨"a1", some "w2", none, none, false⟩]
  exact ⟨h.1, h.2.1 ⟨"a1", some "w2", none, none, false⟩ (by decide)⟩

/-- The mutable fields of a stored row agree with a canonical record. -/
def fieldsEq (r : CanonicalRecord) (p : ProductRow) : Prop :=
  p.name = r.name ∧ p.description = r.description ∧
  p.price_cents = r.price_cents ∧ p.active = r.active

/-- The conflict overwrite never changes a row's sku. -/
theorem applyConflict_sku (r : CanonicalRecord) (p : ProductRow) :
    (applyConflict r p).sku = p.sku := by
  unfold applyConflict
  split <;> rfl

/-- After upserting `r`, every row carrying `r`'s case-insensitive key has
`r`'s mutable fields. -/
theorem upsertOne_fields (st : Store) (now : Nat) (r : CanonicalRecord) :
    ∀ p ∈ (upsertOne st now r).rows, pyLower p.sku = pyLower r.sku → fieldsEq r p := by
  intro p hp hk
  unfold upsertOne at hp
  by_cases hc : st.rows.any (fun q => pyLower q.sku == pyLower r.sku) = true
  · rw [if_pos hc] at hp
    obtain ⟨q, hq, rfl⟩ := List.mem_map.1 hp
    unfold applyConflict
    by_cases hqk : pyLower q.sku = pyLower r.sku
    · rw [if_pos hqk]
      exact ⟨rfl, rfl, rfl, rfl⟩
    · rw [applyConflict_sku] at hk
      exact absurd hk hqk
  · rw [if_neg hc] at hp
    rcases List.mem_append.1 hp with hmem | hmem
    · simp only [Bool.not_eq_true, List.any_eq_false] at hc
      have hfalse := hc p hmem
      rw [beq_eq_false_iff_ne] at hfalse
      exact absurd hk hfalse
    · obtain rfl := List.mem_singleton.1 hmem
      exact ⟨rfl, rfl, rfl, rfl⟩

/-- Upserting a record with a different key neither changes nor adds rows
carrying key `k`: their fields stay put. -/
theorem upsertOne_stable (st : Store) (now : Nat) (r : CanonicalRecord)
    (k : String) (v : CanonicalRecord) (hne : pyLower r.sku ≠ k)
    (hst : ∀ p ∈ st.rows, pyLower p.sku = k → fieldsEq v p) :
    ∀ p ∈ (upsertOne st now r).rows, pyLower p.sku = k → fieldsEq v p := by
  intro p hp hk
  unfold upsertOne at hp
  by_cases hc : st.rows.any (fun q => pyLower q.sku == pyLower r.sku) = true
  · rw [if_pos hc] at hp
    obtain ⟨q, hq, rfl⟩ := List.mem_map.1 hp
    rw [applyConflict_sku] at hk
    unfold applyConflict
    by_cases hqk : pyLower q.sku = pyLower r.sku
    · exact absurd hk (hqk ▸ hne ∘ Eq.symm ∘ Eq.symm)
    · rw [if_neg hqk]
      exact hst q hq hk
  · rw [if_neg hc] at hp
    rcases List.mem_append.1 hp with hmem | hmem
    · exact hst p hmem hk
    · obtain rfl := List.mem_singleton.1 hmem
      exact absurd hk hne

/-- After upserting `r`, some row carries `r`'s key. -/
theorem upsertOne_present (st : Store) (now : Nat) (r : CanonicalRecord) :
    ∃ p ∈ (upsertOne st now r).rows, pyLower p.sku = pyLower r.sku := by
  unfold upsertOne
  by_cases hc : st.rows.any (fun q => pyLower q.sku == pyLower r.sku) = true
  · rw [if_pos hc]
    obtain ⟨q, hq, hqk⟩ := List.any_eq_true.1 hc
    refine ⟨applyConflict r q, List.mem_map.2 ⟨q, hq, rfl⟩, ?_⟩
    rw [applyConflict_sku]
    exact of_decide_eq_true (by simpa using hqk)
  · rw [if_neg hc]
    exact ⟨_, List.mem_append.2 (Or.inr (List.mem_singleton.2 rfl)), rfl⟩

/-- Upserting preserves the presence of any key. -/
theorem upsertOne_preserves_present (st : Store) (now : Nat) (r : CanonicalRecord)
    (k : String) (h : ∃ p ∈ st.rows, pyLower p.sku = k) :
    ∃ p ∈ (upsertOne st now r).rows, pyLower p.sku = k := by
  obtain ⟨p, hp, hk⟩ := h
  unfold upsertOne
  by_cases hc : st.rows.any (fun q => pyLower q.sku == pyLower r.sku) = true
  · rw [if_pos hc]
    refine ⟨applyConflict r p, List.mem_map.2 ⟨p, hp, rfl⟩, ?_⟩
    rw [applyConflict_sku]
    exact hk
  · rw [if_neg hc]
    exact ⟨p, List.mem_append.2 (Or.inl hp), hk⟩

/-- Upserting a record whose key is already present with the same mutable
fields is the identity on the store. -/
theorem upsertOne_id (st : Store) (now : Nat) (r : CanonicalRecord)
    (hpres : ∃ p ∈ st.rows, pyLower p.sku = pyLower r.sku)
    (hfields : ∀ p ∈ st.rows, pyLower p.sku = pyLower r.sku → fieldsEq r p) :
    upsertOne st now r = st := by
  obtain ⟨q, hq, hqk⟩ := hpres
  have hc : st.rows.any (fun p => pyLower p.sku == pyLower r.sku) = true :=
    List.any_eq_true.2 ⟨q, hq, by simpa using hqk⟩
  unfold upsertOne
  rw [if_pos hc]
  have hmap : st.rows.map (applyConflict r) = st.rows := by
    conv_rhs => rw [← List.map_id st.rows]
    refine List.map_congr_left ?_
    intro p hp
    show applyConflict r p = p
    unfold applyConflict
    by_cases hpk : pyLower p.sku = pyLower r.sku
    · rw [if_pos hpk]
      obtain ⟨h1, h2, h3, h4⟩ := hfields p hp hpk
      rw [← h1, ← h2, ← h3, ← h4]
    · rw [if_neg hpk]
  rw [hmap]

/-- A fold of upserts whose records all carry keys different from `k`
preserves both the presence of `k` and the fields of the rows keyed `k`. -/
theorem fold_stable (now : Nat) (k : String) (v : CanonicalRecord) :
    ∀ (rest : List CanonicalRecord) (st : Store),
      (∀ x ∈ rest, pyLower x.sku ≠ k) →
      (∃ p ∈ st.rows, pyLower p.sku = k) →
      (∀ p ∈ st.rows, pyLower p.sku = k → fieldsEq v p) →
      (∃ p ∈ (rest.foldl (fun s x => upsertOne s now x) st).rows,
        pyLower p.sku = k) ∧
      (∀ p ∈ (rest.foldl (fun s x => upsertOne s now x) st).rows,
        pyLower p.sku = k → fieldsEq v p) := by
  intro rest
  induction rest with
  | nil => intro st _ h1 h2; exact ⟨h1, h2⟩
  | cons r1 rest1 ih1 =>
    intro st hne h1 h2
    rw [List.foldl_cons]
    refine ih1 (upsertOne st now r1) ?_ ?_ ?_
    · intro x hx
      exact hne x (List.mem_cons.2 (Or.inr hx))
    · exact upsertOne_preserves_present st now r1 k h1
    · exact upsertOne_stable st now r1 k v (hne r1 (List.mem_cons_self _ _)) h2

/-- After a bulk upsert of a batch with duplicate-free keys, every batch
record's key is present and carries that record's fields. -/
theorem bulk_establishes (now : Nat) (b : List CanonicalRecord)
    (hnd : (b.map (fun r => pyLower r.sku)).Nodup) (st : Store) :
    ∀ r ∈ b,
      (∃ p ∈ (b.foldl (fun s x => upsertOne s now x) st).rows,
        pyLower p.sku = pyLower r.sku) ∧
      (∀ p ∈ (b.foldl (fun s x => upsertOne s now x) st).rows,
        pyLower p.sku = pyLower r.sku → fieldsEq r p) := by
  induction b generalizing st with
  | nil => intro r hr; simp at hr
  | cons r0 rest ih =>
    simp only [List.map_cons, List.nodup_cons] at hnd
    intro r hr
    rcases List.mem_cons.1 hr with rfl | hmem
    · rw [List.foldl_cons]
      have hrest : ∀ x ∈ rest, pyLower x.sku ≠ pyLower r.sku := by
        intro x hx hcontra
        exact hnd.1 (hcontra ▸ List.mem_map.2 ⟨x, hx, rfl⟩)
      exact fold_stable now (pyLower r.sku) r rest (upsertOne st now r) hrest
        (upsertOne_present st now r) (upsertOne_fields st now r)
    · rw [List.foldl_cons]
      exact ih hnd.2 (upsertOne st now r0) r hmem

/-- Re-upserting records whose keys and fields are already in place is the
identity on the store. -/
theorem bulk_id (now : Nat) (b : List CanonicalRecord) (st : Store)
    (h : ∀ r ∈ b,
      (∃ p ∈ st.rows, pyLower p.sku = pyLower r.sku) ∧
      (∀ p ∈ st.rows, pyLower p.sku = pyLower r.sku → fieldsEq r p)) :
    b.foldl (fun s x => upsertOne s now x) st = st := by
  induction b with
  | nil => rfl
  | cons r0 rest ih =>
    rw [List.foldl_cons]
    have h0 := h r0 (List.mem_cons_self _ _)
    rw [upsertOne_id st now r0 h0.1 h0.2]
    exact ih (fun r hr => h r (List.mem_cons.2 (Or.inr hr)))

/-- C7: upserting the same deduplicated batch twice (the second time with
any timestamp) leaves the stored rows — ids, timestamps and all —
identical to one upsert; the second call still reports the full batch
size as processed; the empty batch is a no-op returning zero. -/
theorem upsert_bulk_idempotent (st : Store) (now now2 : Nat)
    (b : List CanonicalRecord) (hnd : (b.map (fun r => pyLower r.sku)).Nodup) :
    (upsert_products_bulk (upsert_products_bulk st now b).1 now2 b).1 =
      (upsert_products_bulk st now b).1 ∧
    (upsert_products_bulk (upsert_products_bulk st now b).1 now2 b).2 = b.length ∧
    upsert_products_bulk st now ([] : List CanonicalRecord) = (st, 0) := by
  refine ⟨?_, rfl, rfl⟩
  have h1 := bulk_establishes now b hnd st
  exact bulk_id now2 b _ (fun r hr => ⟨(h1 r hr).1, (h1 r hr).2⟩)

/-- C7 witness: a two-record batch with distinct keys, upserted twice into
an empty store, with differing timestamps. -/
theorem upsert_bulk_idempotent_witness :
    (upsert_products_bulk
        (upsert_products_bulk ⟨[], 1⟩ 5 [⟨"A", some "x", none, some 3, true⟩,
          ⟨"B", none, none, none, false⟩]).1 9
        [⟨"A", some "x", none, some 3, true⟩, ⟨"B", none, none, none, false⟩]).1 =
      (upsert_products_bulk ⟨[], 1⟩ 5 [⟨"A", some "x", none, some 3, true⟩,
        ⟨"B", none, none, none, false⟩]).1 ∧
    (upsert_products_bulk
        (upsert_products_bulk ⟨[], 1⟩ 5 [⟨"A", some "x", none, some 3, true⟩,
          ⟨"B", none, none, none, false⟩]).1 9
        [⟨"A", some "x", none, some 3, true⟩, ⟨"B", none, none, none, false⟩]).2 = 2 := by
  have h := upsert_bulk_idempotent ⟨[], 1⟩ 5 9
    [⟨"A", some "x", none, some 3, true⟩, ⟨"B", none, none, none, false⟩] (by decide)
  exact ⟨h.1, h.2.1⟩

/-- Progress ordering between two published states. -/
def ProgLE (a b : TaskState) : Prop := a.progress ≤ b.progress

/-- The loop invariant behind progress monotonicity: the trace published
so far is progress-sorted, the current state is its last and upper bound,
the published progress never exceeds the processed count, and every state
after the initializing write carries the counted total. -/
structure LoopInv (T : Nat) (l : LoopSt) : Prop where
  pw : l.trace.Pairwise ProgLE
  ub : ∀ s ∈ l.trace, s.progress ≤ l.cur.progress
  curle : l.cur.progress ≤ l.processed
  tot : l.cur.total = T
  tottr : ∀ s ∈ l.trace.drop 1, s.total = T

/-- Membership in the tail of a one-element append. -/
theorem mem_drop_append (t : List TaskState) (c s : TaskState)
    (h : s ∈ (t ++ [c]).drop 1) : s ∈ t.drop 1 ∨ s = c := by
  cases t with
  | nil => simp at h
  | cons a t2 =>
    rw [List.drop_append_of_le_length (by simp)] at h
    rcases List.mem_append.1 h with h2 | h2
    · exact Or.inl h2
    · exact Or.inr (List.mem_singleton.1 h2)

/-- Appending one more state that dominates the trace keeps the trace
progress-sorted and total-stable. -/
theorem LoopInv.append {T : Nat} {l : LoopSt} (inv : LoopInv T l) (c : TaskState)
    (hp : l.cur.progress ≤ c.progress) (ht : c.total = T) :
    ((l.trace ++ [c]).Pairwise ProgLE) ∧
    (∀ s ∈ (l.trace ++ [c]).drop 1, s.total = T) := by
  constructor
  · rw [List.pairwise_append]
    refine ⟨inv.pw, List.pairwise_singleton _ _, ?_⟩
    intro a ha b hb
    obtain rfl := List.mem_singleton.1 hb
    exact le_trans (inv.ub a ha) hp
  · intro s hs
    rcases mem_drop_append _ _ _ hs with h | rfl
    · exact inv.tottr s h
    · exact ht

/-- Loop steps that only consume rows, grow the accumulators or touch the
store preserve the invariant. -/
theorem LoopInv.mono {T : Nat} {l : LoopSt} (inv : LoopInv T l) (l2 : LoopSt)
    (htr : l2.trace = l.trace) (hcur : l2.cur = l.cur)
    (hp : l.processed ≤ l2.processed) : LoopInv T l2 := by
  refine ⟨htr ▸ inv.pw, ?_, ?_, hcur ▸ inv.tot, ?_⟩
  · intro s hs
    rw [hcur]
    exact inv.ub s (htr ▸ hs)
  · rw [hcur]
    exact le_trans inv.curle hp
  · intro s hs
    exact inv.tottr s (htr ▸ hs)

/-- The batch-boundary publish preserves the invariant. -/
theorem LoopInv.push_importing {T : Nat} {l : LoopSt} (inv : LoopInv T l)
    (t2 : Nat) : LoopInv T (pushW l (wImporting l.processed t2 l.invalid_rows)) := by
  have happ := inv.append (applyWrite l.cur (wImporting l.processed t2 l.invalid_rows))
    inv.curle inv.tot
  refine ⟨happ.1, ?_, Nat.le_refl _, inv.tot, happ.2⟩
  intro s hs
  rcases List.mem_append.1 hs with h | h
  · exact le_trans (inv.ub s h) inv.curle
  · obtain rfl := List.mem_singleton.1 h
    exact le_refl _

/-- The row loop preserves the invariant, whether it completes or aborts
on an injected storage fault. -/
theorem importLoop_inv (fault : Nat → Option String) (now bs T : Nat) :
    ∀ (rows : List RawRow) (l : LoopSt), LoopInv T l →
      (match importLoop fault now bs T rows l with
       | .ok l2 => LoopInv T l2
       | .error e => LoopInv T e.2) := by
  intro rows
  induction rows with
  | nil => intro l inv; exact inv
  | cons row rest ih =>
    intro l inv
    rw [importLoop]
    cases hn : _normalize_row row with
    | none =>
      exact ih _ (inv.mono _ rfl rfl (Nat.le_refl _))
    | some product =>
      dsimp only
      by_cases hb :
          ({ l with batch := l.batch ++ [product] } : LoopSt).batch.length ≥ bs
      · rw [if_pos hb]
        cases hf : fault ({ l with batch := l.batch ++ [product] } : LoopSt).upserts with
        | some m =>
          exact inv.mono _ rfl rfl (Nat.le_refl _)
        | none =>
          dsimp only
          apply ih
          have hmid : LoopInv T
              ({ l with
                 batch := ([] : List CanonicalRecord),
                 store := (upsert_products_bulk
                   ({ l with batch := l.batch ++ [product] } : LoopSt).store now
                   (_dedupe_batch (l.batch ++ [product]))).1,
                 processed := l.processed + (upsert_products_bulk
                   ({ l with batch := l.batch ++ [product] } : LoopSt).store now
                   (_dedupe_batch (l.batch ++ [product]))).2,
                 upserts := l.upserts + 1 } : LoopSt) :=
            inv.mono _ rfl rfl (Nat.le_add_right _ _)
          exact hmid.push_importing _
      · rw [if_neg hb]
        exact ih _ (inv.mono _ rfl rfl (Nat.le_refl _))

/-- The final partial-batch flush preserves the invariant. -/
theorem finalFlush_inv (fault : Nat → Option String) (now T : Nat) (l : LoopSt)
    (inv : LoopInv T l) :
    (match finalFlush fault now l with
     | .ok l2 => LoopInv T l2
     | .error e => LoopInv T e.2) := by
  unfold finalFlush
  by_cases hb : l.batch.isEmpty = true
  · rw [if_pos hb]
    exact inv
  · rw [if_neg hb]
    cases hf : fault l.upserts with
    | some m =>
      exact inv.mono _ rfl rfl (Nat.le_refl _)
    | none =>
      dsimp only
      exact inv.mono _ rfl rfl (Nat.le_add_right _ _)

/-- Across every run, the published trace is progress-sorted and every
state from the parsing write on carries the counted total. -/
theorem run_trace_sorted (fault : Nat → Option String) (bs : Nat) (st0 : Store)
    (now : Nat) (fe0 : Bool) (content : String) :
    (import_products_task fault bs st0 now fe0 content).trace.Pairwise ProgLE ∧
    ∀ s ∈ (import_products_task fault bs st0 now fe0 content).trace.drop 1,
      s.total = _count_rows content := by
  unfold import_products_task
  dsimp only
  by_cases hh : headerBad content = true
  · rw [if_pos hh]
    constructor
    · refine List.Pairwise.cons ?_ (List.Pairwise.cons ?_ (List.pairwise_singleton _ _))
      · intro b hb
        rcases List.mem_cons.1 hb with rfl | hb2
        · exact Nat.le_refl _
        · obtain rfl := List.mem_singleton.1 hb2
          exact Nat.le_refl _
      · intro b hb
        obtain rfl := List.mem_singleton.1 hb
        exact Nat.le_refl _
    · intro s hs
      simp only [List.cons_append, List.nil_append, List.drop_succ_cons,
        List.drop_zero] at hs
      rcases List.mem_cons.1 hs with rfl | hs2
      · rfl
      · obtain rfl := List.mem_singleton.1 hs2
        rfl
  · rw [if_neg hh]
    have hinv0 : LoopInv (_count_rows content)
        ⟨[], 0, 0, st0, 0,
          applyWrite (applyWrite initialTaskState wInit) (wParsing (_count_rows content)),
          [applyWrite initialTaskState wInit,
            applyWrite (applyWrite initialTaskState wInit) (wParsing (_count_rows content))]⟩ := by
      refine ⟨?_, ?_, Nat.le_refl _, rfl, ?_⟩
      · refine List.Pairwise.cons ?_ (List.pairwise_singleton _ _)
        intro b hb
        obtain rfl := List.mem_singleton.1 hb
        exact Nat.le_refl _
      · intro s hs
        rcases List.mem_cons.1 hs with rfl | hs2
        · exact Nat.le_refl _
        · obtain rfl := List.mem_singleton.1 hs2
          exact Nat.le_refl _
      · intro s hs
        simp only [List.drop_succ_cons, List.drop_zero] at hs
        obtain rfl := List.mem_singleton.1 hs
        rfl
    have hloop := importLoop_inv fault now bs (_count_rows content)
      (csvParse content).2 _ hinv0
    split
    · rename_i e heq
      rw [heq] at hloop
      exact hloop.append _ (le_refl _) hloop.tot
    · rename_i l1 heq
      rw [heq] at hloop
      have hff := finalFlush_inv fault now (_count_rows content) l1 hloop
      split
      · rename_i e heq2
        rw [heq2] at hff
        exact hff.append _ (le_refl _) hff.tot
      · rename_i l2 heq2
        rw [heq2] at hff
        exact hff.append _ hff.curle rfl

/-- Rounding to two decimals is monotone. -/
theorem pyRound2_mono (a b : ℚ) (h : a ≤ b) : pyRound2 a ≤ pyRound2 b := by
  unfold pyRound2
  refine div_le_div_of_nonneg_right ?_ (by norm_num)
  have h2 : round (a * 100) ≤ round (b * 100) := by
    rw [round_eq, round_eq]
    exact Int.floor_le_floor (by linarith)
  exact_mod_cast h2

/-- The derived percentage is monotone in the processed count. -/
theorem percentOf_mono (p q t : Nat) (hpq : p ≤ q) : percentOf p t ≤ percentOf q t := by
  unfold percentOf
  exact mul_le_mul_of_nonneg_right
    (div_le_div_of_nonneg_right (by exact_mod_cast hpq) (by positivity)) (by norm_num)

/-- C10: across the ordered status writes of one run, the published
progress never decreases; from the parsing write on (index 1), the
published total never changes; hence the percent-complete a poller
derives as progress / total * 100 rounded to two decimals is monotonically
non-decreasing across successive reads wherever it is defined. -/
theorem progress_percent_monotone (fault : Nat → Option String) (bs : Nat)
    (st0 : Store) (now : Nat) (fe0 : Bool) (content : String) (i j : Nat)
    (hi : i < (import_products_task fault bs st0 now fe0 content).trace.length)
    (hj : j < (import_products_task fault bs st0 now fe0 content).trace.length)
    (hij : i ≤ j) :
    (((import_products_task fault bs st0 now fe0 content).trace.get ⟨i, hi⟩).progress ≤
      ((import_products_task fault bs st0 now fe0 content).trace.get ⟨j, hj⟩).progress) ∧
    (1 ≤ i →
      ((import_products_task fault bs st0 now fe0 content).trace.get ⟨j, hj⟩).total =
      ((import_products_task fault bs st0 now fe0 content).trace.get ⟨i, hi⟩).total) ∧
    (1 ≤ i →
      ((import_products_task fault bs st0 now fe0 content).trace.get ⟨i, hi⟩).total ≠ 0 →
      pyRound2 (percentOf
          ((import_products_task fault bs st0 now fe0 content).trace.get ⟨i, hi⟩).progress
          ((import_products_task fault bs st0 now fe0 content).trace.get ⟨i, hi⟩).total) ≤
      pyRound2 (percentOf
          ((import_products_task fault bs st0 now fe0 content).trace.get ⟨j, hj⟩).progress
          ((import_products_task fault bs st0 now fe0 content).trace.get ⟨j, hj⟩).total)) := by
  obtain ⟨hpw, htot⟩ := run_trace_sorted fault bs st0 now fe0 content
  have hprog :
      ((import_products_task fault bs st0 now fe0 content).trace.get ⟨i, hi⟩).progress ≤
      ((import_products_task fault bs st0 now fe0 content).trace.get ⟨j, hj⟩).progress := by
    rcases eq_or_lt_of_le hij with rfl | hlt
    · exact le_refl _
    · exact List.pairwise_iff_get.1 hpw ⟨i, hi⟩ ⟨j, hj⟩ (Fin.mk_lt_mk.2 hlt)
  have hmemtot : ∀ (k : Nat)
      (hk : k < (import_products_task fault bs st0 now fe0 content).trace.length),
      1 ≤ k →
      ((import_products_task fault bs st0 now fe0 content).trace.get ⟨k, hk⟩).total =
        _count_rows content := by
    intro k hk h1
    apply htot
    obtain ⟨k2, rfl⟩ : ∃ k2, k = 1 + k2 := ⟨k - 1, by omega⟩
    have h2 : k2 <
        ((import_products_task fault bs st0 now fe0 content).trace.drop 1).length := by
      rw [List.length_drop]
      omega
    have h3 : ((import_products_task fault bs st0 now fe0 content).trace.drop 1).get
        ⟨k2, h2⟩ =
        (import_products_task fault bs st0 now fe0 content).trace.get ⟨1 + k2, hk⟩ := by
      simp only [List.get_eq_getElem]
      exact (List.getElem_drop' _ hk).symm
    rw [← h3]
    exact List.get_mem _ _ _
  refine ⟨hprog, ?_, ?_⟩
  · intro h1
    rw [hmemtot j hj (le_trans h1 hij), hmemtot i hi h1]
  · intro h1 hne
    rw [hmemtot j hj (le_trans h1 hij), hmemtot i hi h1]
    rw [hmemtot i hi h1] at hne
    exact pyRound2_mono _ _ (percentOf_mono _ _ _ hprog)

/-- C10 witness: on the spec's scenario input, between the parsing write
(index 1) and the complete write (index 2) the progress, total and derived
rounded percentage are ordered as the theorem states. -/
theorem progress_percent_monotone_witness :
    (((import_products_task noFault 5000 ⟨[], 1⟩ 0 true
        "sku,name,price\nA1,Widget,$12.50\n,NoKey,5\nA1,Widget2,9.99\n").trace.get
        ⟨1, by decide⟩).progress ≤
      ((import_products_task noFault 5000 ⟨[], 1⟩ 0 true
        "sku,name,price\nA1,Widget,$12.50\n,NoKey,5\nA1,Widget2,9.99\n").trace.get
        ⟨2, by decide⟩).progress) ∧
    (((import_products_task noFault 5000 ⟨[], 1⟩ 0 true
        "sku,name,price\nA1,Widget,$12.50\n,NoKey,5\nA1,Widget2,9.99\n").trace.get
        ⟨2, by decide⟩).total =
      ((import_products_task noFault 5000 ⟨[], 1⟩ 0 true
        "sku,name,price\nA1,Widget,$12.50\n,NoKey,5\nA1,Widget2,9.99\n").trace.get
        ⟨1, by decide⟩).total) ∧
    (pyRound2 (percentOf
        ((import_products_task noFault 5000 ⟨[], 1⟩ 0 true
          "sku,name,price\nA1,Widget,$12.50\n,NoKey,5\nA1,Widget2,9.99\n").trace.get
          ⟨1, by decide⟩).progress
        ((import_products_task noFault 5000 ⟨[], 1⟩ 0 true
          "sku,name,price\nA1,Widget,$12.50\n,NoKey,5\nA1,Widget2,9.99\n").trace.get
          ⟨1, by decide⟩).total) ≤
      pyRound2 (percentOf
        ((import_products_task noFault 5000 ⟨[], 1⟩ 0 true
          "sku,name,price\nA1,Widget,$12.50\n,NoKey,5\nA1,Widget2,9.99\n").trace.get
          ⟨2, by decide⟩).progress
        ((import_products_task noFault 5000 ⟨[], 1⟩ 0 true
          "sku,name,price\nA1,Widget,$12.50\n,NoKey,5\nA1,Widget2,9.99\n").trace.get
          ⟨2, by decide⟩).total)) := by
  have h := progress_percent_monotone noFault 5000 ⟨[], 1⟩ 0 true
    "sku,name,price\nA1,Widget,$12.50\n,NoKey,5\nA1,Widget2,9.99\n" 1 2
    (by decide) (by decide) (by omega)
  exact ⟨h.1, h.2.1 (by omega), h.2.2 (by omega) (by decide)⟩

/-- C4 core: the normalizer rejects a row exactly when its sku is missing
or empty after trimming. -/
theorem normalize_none_iff (row : RawRow) :
    _normalize_row row = none ↔ rowSku row = "" := by
  unfold _normalize_row
  by_cases h : rowSku row = "" <;> simp [h]

/-- Setting a fresh key appends the entry. -/
theorem setKey_append {α : Type} (m : List (String × α)) (k : String) (v : α)
    (h : k ∉ m.map Prod.fst) : setKey m k v = m ++ [(k, v)] := by
  induction m with
  | nil => rfl
  | cons e rest ih =>
    simp only [List.map_cons, List.mem_cons, not_or] at h
    have hne : e.1 ≠ k := fun hc => h.1 hc.symm
    simp only [setKey, if_neg hne, List.cons_append, List.cons.injEq, true_and]
    exact ih h.2

/-- On records with fresh, pairwise-distinct keys the dedupe dict is a
plain append of key/record pairs. -/
theorem ddfold_append (rows : List CanonicalRecord) :
    ∀ (m : List (String × CanonicalRecord)),
      (∀ r ∈ rows, pyLower r.sku ∉ m.map Prod.fst) →
      ((rows.map (fun r => pyLower r.sku)).Nodup) →
      ddfold rows m = m ++ rows.map (fun r => (pyLower r.sku, r)) := by
  induction rows with
  | nil => intro m _ _; simp [ddfold]
  | cons r rest ih =>
    intro m hfresh hnd
    simp only [List.map_cons, List.nodup_cons] at hnd
    have hstep : ddfold (r :: rest) m = ddfold rest (setKey m (pyLower r.sku) r) := rfl
    rw [hstep, setKey_append m _ r (hfresh r (List.mem_cons_self _ _))]
    rw [ih (m ++ [(pyLower r.sku, r)]) ?_ hnd.2]
    · simp
    · intro x hx
      simp only [List.map_append, List.mem_append, List.map_cons, List.map_nil,
        List.mem_singleton, not_or]
      refine ⟨hfresh x (List.mem_cons.2 (Or.inr hx)), ?_⟩
      intro hc
      exact hnd.1 (hc ▸ List.mem_map.2 ⟨x, hx, rfl⟩)

/-- Deduplicating a batch whose keys are already pairwise distinct is the
identity. -/
theorem dedupe_nodup_id (rows : List CanonicalRecord)
    (hnd : (rows.map (fun r => pyLower r.sku)).Nodup) : _dedupe_batch rows = rows := by
  have h1 : _dedupe_batch rows = (ddfold rows []).map Prod.snd := rfl
  rw [h1, ddfold_append rows [] (by simp) hnd]
  simp only [List.nil_append, List.map_map]
  exact List.map_id rows

/-- In a fault-free run the row loop always completes; it increments the
invalid counter once per rejected row, and — when the accepted rows of the
whole stream have pairwise-distinct keys — the processed count plus the
pending batch length grows by exactly the number of accepted rows, the
pending batch keeping distinct keys. -/
theorem importLoop_count (now bs T : Nat) :
    ∀ (rows : List RawRow) (l : LoopSt),
      ∃ l2, importLoop noFault now bs T rows l = .ok l2 ∧
        l2.invalid_rows = l.invalid_rows +
          rows.countP (fun r => (_normalize_row r).isNone) ∧
        (((l.batch ++ rows.filterMap _normalize_row).map
            (fun r => pyLower r.sku)).Nodup →
          l2.processed + l2.batch.length =
            l.processed + l.batch.length + (rows.filterMap _normalize_row).length ∧
          (l2.batch.map (fun r => pyLower r.sku)).Nodup) := by
  intro rows
  induction rows with
  | nil =>
    intro l
    refine ⟨l, rfl, by simp, ?_⟩
    intro h
    refine ⟨by simp, ?_⟩
    rw [List.filterMap_nil, List.append_nil] at h
    exact h
  | cons row rest ih =>
    intro l
    cases hn : _normalize_row row with
    | none =>
      obtain ⟨l2, heq, hinv, hcond⟩ := ih { l with invalid_rows := l.invalid_rows + 1 }
      have hfm : (row :: rest).filterMap _normalize_row =
          rest.filterMap _normalize_row := by
        simp [List.filterMap_cons, hn]
      refine ⟨l2, ?_, ?_, ?_⟩
      · rw [importLoop, hn]
        exact heq
      · rw [hinv, List.countP_cons]
        simp [hn]
        omega
      · intro h
        rw [hfm] at h ⊢
        exact hcond h
    | some product =>
      have hfm : (row :: rest).filterMap _normalize_row =
          product :: rest.filterMap _normalize_row := by
        simp [List.filterMap_cons, hn]
      by_cases hb : ({ l with batch := l.batch ++ [product] } : LoopSt).batch.length ≥ bs
      · obtain ⟨l2, heq, hinv, hcond⟩ := ih
          (pushW
            { l with
              batch := ([] : List CanonicalRecord),
              store := (upsert_products_bulk l.store now
                (_dedupe_batch (l.batch ++ [product]))).1,
              processed := l.processed + (upsert_products_bulk l.store now
                (_dedupe_batch (l.batch ++ [product]))).2,
              upserts := l.upserts + 1 }
            (wImporting (l.processed + (upsert_products_bulk l.store now
                (_dedupe_batch (l.batch ++ [product]))).2) T l.invalid_rows))
        refine ⟨l2, ?_, ?_, ?_⟩
        · rw [importLoop, hn]
          dsimp only
          rw [if_pos hb]
          exact heq
        · rw [hinv, List.countP_cons]
          dsimp only [pushW]
          simp [hn]
        · intro h
          rw [hfm] at h ⊢
          have hassoc : l.batch ++ product :: rest.filterMap _normalize_row =
              (l.batch ++ [product]) ++ rest.filterMap _normalize_row := by
            simp
          rw [hassoc] at h
          rw [List.map_append] at h
          have hprefix : ((l.batch ++ [product]).map (fun r => pyLower r.sku)).Nodup :=
            h.of_append_left
          have hsuffix : ((rest.filterMap _normalize_row).map
              (fun r => pyLower r.sku)).Nodup := h.of_append_right
          obtain ⟨hproc, hbn⟩ := hcond (by simpa using hsuffix)
          refine ⟨?_, hbn⟩
          rw [hproc]
          have hD : (upsert_products_bulk l.store now
              (_dedupe_batch (l.batch ++ [product]))).2 =
              (l.batch ++ [product]).length := by
            have h2 : (upsert_products_bulk l.store now
                (_dedupe_batch (l.batch ++ [product]))).2 =
                (_dedupe_batch (l.batch ++ [product])).length := rfl
            rw [h2, dedupe_nodup_id _ hprefix]
          dsimp only [pushW]
          rw [hD]
          simp only [List.length_append, List.length_cons, List.length_nil]
          omega
      · obtain ⟨l2, heq, hinv, hcond⟩ := ih { l with batch := l.batch ++ [product] }
        refine ⟨l2, ?_, ?_, ?_⟩
        · rw [importLoop, hn]
          dsimp only
          rw [if_neg hb]
          exact heq
        · rw [hinv, List.countP_cons]
          simp [hn]
        · intro h
          rw [hfm] at h ⊢
          have hassoc : l.batch ++ product :: rest.filterMap _normalize_row =
              (l.batch ++ [product]) ++ rest.filterMap _normalize_row := by
            simp
          rw [hassoc] at h
          obtain ⟨hproc, hbn⟩ := hcond h
          refine ⟨?_, hbn⟩
          rw [hproc]
          simp only [List.length_append, List.length_cons, List.length_nil]
          omega

/-- In a fault-free run the final flush succeeds, keeps the invalid
counter and the status state, and adds the deduplicated remainder to the
processed count. -/
theorem finalFlush_noFault (now : Nat) (l : LoopSt) :
    ∃ l3, finalFlush noFault now l = .ok l3 ∧
      l3.invalid_rows = l.invalid_rows ∧
      l3.cur = l.cur ∧
      l3.processed = l.processed + (_dedupe_batch l.batch).length := by
  unfold finalFlush
  by_cases hb : l.batch.isEmpty = true
  · rw [if_pos hb]
    refine ⟨l, rfl, rfl, rfl, ?_⟩
    rw [List.isEmpty_iff.1 hb]
    rfl
  · rw [if_neg hb]
    exact ⟨_, rfl, rfl, rfl, rfl⟩

/-- C4: the normalizer rejects a row exactly when its sku is missing or
empty after trimming; consequently, in any completed fault-free run the
published invalid counter equals the number of data rows with an empty
trimmed sku (rows with unparseable prices are accepted), and — when the
accepted rows carry pairwise-distinct keys, so batch deduplication
retains them all — the published progress equals the number of accepted
rows. -/
theorem invalid_counts_empty_sku_only (bs : Nat) (st0 : Store) (now : Nat)
    (fe0 : Bool) (content : String) :
    (∀ row : RawRow, _normalize_row row = none ↔ rowSku row = "") ∧
    ((import_products_task noFault bs st0 now fe0 content).outcome = none →
      (import_products_task noFault bs st0 now fe0 content).finalState.invalid =
        (csvParse content).2.countP (fun r => decide (rowSku r = "")) ∧
      ((((csvParse content).2.filterMap _normalize_row).map
          (fun r => pyLower r.sku)).Nodup →
        (import_products_task noFault bs st0 now fe0 content).finalState.progress =
          ((csvParse content).2.filterMap _normalize_row).length)) := by
  refine ⟨normalize_none_iff, ?_⟩
  intro hout
  have hcount : (csvParse content).2.countP (fun r => (_normalize_row r).isNone) =
      (csvParse content).2.countP (fun r => decide (rowSku r = "")) := by
    apply List.countP_congr
    intro r _
    by_cases h : rowSku r = ""
    · simp [h, (normalize_none_iff r).2 h]
    · have h2 : ¬ _normalize_row r = none := fun hc => h ((normalize_none_iff r).1 hc)
      simp [h, Option.isNone_iff_eq_none, h2]
  unfold import_products_task
  dsimp only
  by_cases hh : headerBad content = true
  · unfold import_products_task at hout
    dsimp only at hout
    rw [if_pos hh] at hout
    exact absurd hout (by simp)
  · rw [if_neg hh]
    obtain ⟨l2, heq, hinv, hcond⟩ := importLoop_count now bs (_count_rows content)
      (csvParse content).2
      ⟨[], 0, 0, st0, 0,
        applyWrite (applyWrite initialTaskState wInit) (wParsing (_count_rows content)),
        [applyWrite initialTaskState wInit,
          applyWrite (applyWrite initialTaskState wInit) (wParsing (_count_rows content))]⟩
    obtain ⟨l3, heq3, h3inv, h3cur, h3proc⟩ := finalFlush_noFault now l2
    rw [heq]
    dsimp only
    rw [heq3]
    dsimp only
    constructor
    · show l3.invalid_rows = _
      rw [h3inv, hinv, ← hcount]
      dsimp only
      omega
    · intro hnd
      obtain ⟨hproc, hbn⟩ := hcond (by simpa using hnd)
      simp only [List.length_nil, Nat.zero_add, Nat.add_zero] at hproc
      show l3.processed = _
      rw [h3proc, dedupe_nodup_id _ hbn]
      omega

/-- C4 witness: on a run with one empty-sku row and one row with an
unparseable price, invalid counts exactly the empty-sku row and both
accepted rows (distinct keys) count toward progress. -/
theorem invalid_counts_empty_sku_witness :
    (import_products_task noFault 5000 ⟨[], 1⟩ 0 true
        "sku,price\nA,1\n,5\nB,x\n").finalState.invalid =
      (csvParse "sku,price\nA,1\n,5\nB,x\n").2.countP
        (fun r => decide (rowSku r = "")) ∧
    (import_products_task noFault 5000 ⟨[], 1⟩ 0 true
        "sku,price\nA,1\n,5\nB,x\n").finalState.progress =
      ((csvParse "sku,price\nA,1\n,5\nB,x\n").2.filterMap _normalize_row).length ∧
    (_normalize_row [("sku", some " ")] = none ↔ rowSku [("sku", some " ")] = "") := by
  have h := invalid_counts_empty_sku_only 5000 ⟨[], 1⟩ 0 true "sku,price\nA,1\n,5\nB,x\n"
  have h2 := h.2 (by decide)
  exact ⟨h2.1, h2.2 (by decide), h.1 _⟩
